import Mathlib

/-!
# Post.js: meta-tag synchronisation, tag list and snapshot capture

A shallow embedding of the `Post` component of `src/src/Post.js`:

* the document's `meta` records and the `updateMetaTag` upsert (lines 56-66),
* the body of the `useEffect` callback that synchronises the Open Graph records
  and the document title (lines 68-81) together with its dependency list (line 83),
* the `addTag` / `removeTag` handlers (lines 44-53),
* `generateOgImage` (lines 30-42) and the button that triggers it (lines 130-132).

JavaScript strings are sequences of UTF-16 code units, so `slice` and string
equality are taken on code units, not on Unicode scalar values.
-/

namespace PostPage

/-! ## Strings -/

/-- A JavaScript string: a finite sequence of UTF-16 code units. -/
abbrev JSString := List UInt16

/-- Code units of a string literal of the source (every literal used is ASCII). -/
def lit (s : String) : JSString := s.toList.map (fun c => c.toNat.toUInt16)

/-- The method `String.prototype.slice(b, e)` for non-negative integer arguments:
the code units at positions `b, ..., e - 1`, clamped to the string. -/
def slice (s : JSString) (b e : Nat) : JSString := (s.take e).drop b

/-- Truthiness of a string value: only the empty string is falsy. -/
def truthy (s : JSString) : Bool := !s.isEmpty

/-- Truthiness of a value that is `null` or a string. -/
def truthyOpt : Option JSString → Bool
  | none => false
  | some s => truthy s

/-! ## The document: meta records and title -/

/-- A `meta` element carrying a `property` attribute; `content` may be missing. -/
structure MetaTag where
  property : JSString
  content : Option JSString
  deriving DecidableEq, Repr

/-- The part of the DOM the component touches: the `meta[property]` elements inside
`head` and those after it (inside `body`), each in document order, and the text of
the `title` element. -/
structure Document where
  head : List MetaTag
  body : List MetaTag
  title : JSString
  deriving DecidableEq, Repr

/-- The registry: every `meta[property]` element of the document, in document order. -/
def Document.metas (d : Document) : List MetaTag := d.head ++ d.body

/-- A reference to a `meta` element, as returned by `querySelector`. -/
inductive Node where
  | inHead (i : Nat)
  | inBody (i : Nat)
  deriving DecidableEq, Repr

/-- Position of the first record of a list whose `property` attribute is `p`. -/
def findMeta (p : JSString) : List MetaTag → Option Nat
  | [] => none
  | m :: r => if m.property = p then some 0 else (findMeta p r).map (· + 1)

/-- The element that the valid selector `meta[property="v"]` selects: the first
element, in document order, whose `property` attribute is exactly `v` (attribute
values of `property` are compared case-sensitively), or `null`. -/
def firstWithProperty (d : Document) (v : JSString) : Option Node :=
  match findMeta v d.head with
  | some i => some (Node.inHead i)
  | none => (findMeta v d.body).map Node.inBody

/-! ### The selector text of line 57

`updateMetaTag` pastes `property` unescaped between the quotes of
`meta[property="..."]`, so what `querySelector` looks up is decided by the CSS
tokenizer: a double quote ends the string early, a backslash starts an escape, a raw
line break makes the string a bad string. The reading below follows the CSS Syntax
rules for a string token on the texts it covers and answers `unsupported` on the
others (hex escapes, an escaped line break or end of text, U+0000 and unpaired
surrogates, which input preprocessing rewrites, and an early closing quote followed by
text that may continue a selector). -/

/-- How a call of `querySelector` can fail. -/
inductive Failure where
  /-- The text is not a selector: a `SyntaxError` DOMException is thrown. -/
  | syntaxError
  /-- The text lies outside the part of the selector syntax covered here. -/
  | unsupported
  deriving DecidableEq, Repr

/-- How the selector engine reads a selector text. -/
inductive SelectorValue where
  /-- The text is the selector `meta[property="v"]` for the string value `v`. -/
  | value (v : JSString)
  /-- The text is not a valid selector. -/
  | syntaxError
  /-- The text is not covered. -/
  | unsupported
  deriving DecidableEq, Repr

/-- A CSS newline: line feed, carriage return or form feed. -/
def isNewline (u : UInt16) : Bool := u == 0x0A || u == 0x0D || u == 0x0C

/-- An ASCII hexadecimal digit. -/
def isHexDigit (u : UInt16) : Bool :=
  (decide (0x30 ≤ u) && decide (u ≤ 0x39)) || (decide (0x41 ≤ u) && decide (u ≤ 0x46)) ||
    (decide (0x61 ≤ u) && decide (u ≤ 0x66))

/-- A leading (high) surrogate code unit. -/
def isHighSurrogate (u : UInt16) : Bool := decide (0xD800 ≤ u) && decide (u ≤ 0xDBFF)

/-- A trailing (low) surrogate code unit. -/
def isLowSurrogate (u : UInt16) : Bool := decide (0xDC00 ≤ u) && decide (u ≤ 0xDFFF)

/-- An ASCII letter or digit. -/
def isAsciiAlnum (u : UInt16) : Bool :=
  (decide (0x30 ≤ u) && decide (u ≤ 0x39)) || (decide (0x41 ≤ u) && decide (u ≤ 0x5A)) ||
    (decide (0x61 ≤ u) && decide (u ≤ 0x7A))

/-- The letters `i`, `I`, `s`, `S`, which start the attribute-selector modifiers. -/
def isModifierLetter (u : UInt16) : Bool := u == 0x69 || u == 0x49 || u == 0x73 || u == 0x53

/-- A code unit that cannot follow the value of an attribute selector: a double quote
(a second string), a digit, or a letter that begins an identifier other than the
modifiers `i` and `s`. -/
def cannotFollowValue (u : UInt16) : Bool :=
  u == 0x22 || (isAsciiAlnum u && !isModifierLetter u)

/-- The text after a string that was closed before the end of the selector text. -/
def afterValue : JSString → SelectorValue
  | [] => SelectorValue.unsupported
  | u :: _ => if cannotFollowValue u then SelectorValue.syntaxError else SelectorValue.unsupported

/-- A code unit that a backslash escapes to itself: not a newline, not a hex digit, not
U+0000 and not a surrogate. -/
def simpleEscape (e : UInt16) : Bool :=
  !(isNewline e || isHexDigit e || e == 0 || isHighSurrogate e || isLowSurrogate e)

/-- Put a code unit in front of the value read so far. -/
def SelectorValue.push (u : UInt16) : SelectorValue → SelectorValue
  | SelectorValue.value v => SelectorValue.value (u :: v)
  | r => r

/-- Read the text that follows `meta[property="`. The string token runs up to the first
unescaped double quote; the selector is `meta[property="v"]` when that quote is
followed by `]` and the end of the text. A raw newline inside the string, or a closing
quote followed by a code unit that cannot follow the value, makes the text invalid.
Texts that end inside the string or the brackets are not covered. -/
def scanValue : JSString → SelectorValue
  | [] => SelectorValue.unsupported
  | [u] => if isNewline u then SelectorValue.syntaxError else SelectorValue.unsupported
  | u :: e :: rest =>
    if u = 0x22 then (if e :: rest = [0x5D] then SelectorValue.value [] else afterValue (e :: rest))
    else if isNewline u then SelectorValue.syntaxError
    else if u = 0x5C then
      (if simpleEscape e then (scanValue rest).push e else SelectorValue.unsupported)
    else if u = 0 then SelectorValue.unsupported
    else if isHighSurrogate u then
      (if isLowSurrogate e then ((scanValue rest).push e).push u else SelectorValue.unsupported)
    else if isLowSurrogate u then SelectorValue.unsupported
    else (scanValue (e :: rest)).push u

/-- Remove a literal from the front of a text, if the text starts with it. -/
def dropLiteral : JSString → JSString → Option JSString
  | [], text => some text
  | _ :: _, [] => none
  | a :: l, b :: text => if a = b then dropLiteral l text else none

/-- The template literal of line 57 with `property` pasted in. -/
def selectorText (property : JSString) : JSString :=
  lit "meta[property=" ++ [0x22] ++ property ++ [0x22] ++ lit "]"

/-- Reading of a selector text of the shape built at line 57. -/
def parseSelector (selector : JSString) : SelectorValue :=
  match dropLiteral (lit "meta[property=" ++ [0x22]) selector with
  | some rest => scanValue rest
  | none => SelectorValue.unsupported

/-- The call `document.querySelector(selector)`: the element selected, `null`, or a
failure. -/
def querySelector (d : Document) (selector : JSString) : Except Failure (Option Node) :=
  match parseSelector selector with
  | SelectorValue.value v => Except.ok (firstWithProperty d v)
  | SelectorValue.syntaxError => Except.error Failure.syntaxError
  | SelectorValue.unsupported => Except.error Failure.unsupported

/-- Overwrite the `content` attribute of the record at position `i` of a list. -/
def setContentAt (c : JSString) : Nat → List MetaTag → List MetaTag
  | _, [] => []
  | 0, m :: r => { m with content := some c } :: r
  | i + 1, m :: r => m :: setContentAt c i r

/-- The call `node.setAttribute('content', c)` on an element of the document. -/
def setAttributeContent (d : Document) (n : Node) (c : JSString) : Document :=
  match n with
  | Node.inHead i => { d with head := setContentAt c i d.head }
  | Node.inBody i => { d with body := setContentAt c i d.body }

/-- The call `document.head.appendChild(m)`: `m` becomes the last child of `head`. -/
def appendToHead (d : Document) (m : MetaTag) : Document :=
  { d with head := d.head ++ [m] }

/-- The function `updateMetaTag(property, content)` of lines 56-66. An exception of
`querySelector` leaves the function before anything is written. -/
def updateMetaTag (d : Document) (property content : JSString) : Except Failure Document :=
  match querySelector d (selectorText property) with
  | Except.ok (some metaTag) => Except.ok (setAttributeContent d metaTag content)
  | Except.ok none =>
      Except.ok (appendToHead d { property := property, content := some content })
  | Except.error e => Except.error e

/-- Content of the first record, in document order, whose property is `p`:
`none` when there is no such record, `some none` when it has no `content`. -/
def getContent (d : Document) (p : JSString) : Option (Option JSString) :=
  (d.metas.find? (fun m => decide (m.property = p))).map MetaTag.content

/-! ## The synchronisation effect -/

/-- The literal `'og:image'`. -/
def ogImageKey : JSString := lit "og:image"
/-- The literal `'og:description'`. -/
def ogDescriptionKey : JSString := lit "og:description"
/-- The literal `'og:title'`. -/
def ogTitleKey : JSString := lit "og:title"
/-- The literal `'og:type'`. -/
def ogTypeKey : JSString := lit "og:type"
/-- The literal `'og:url'`. -/
def ogUrlKey : JSString := lit "og:url"
/-- The literal `'article'`. -/
def article : JSString := lit "article"

/-- Body of the `useEffect` callback (lines 68-81), statement by statement; an
exception thrown by a call ends the body. `href` is the value of
`window.location.href` when the body runs. -/
def effectBody (ogImage : Option JSString) (content title href : JSString)
    (d : Document) : Except Failure Document := do
  let d1 ←
    match ogImage with
    | some u => if truthy u then updateMetaTag d ogImageKey u else pure d
    | none => pure d
  let description := slice content 0 160
  let d2 ← updateMetaTag d1 ogDescriptionKey description
  let d3 ← updateMetaTag d2 ogTitleKey title
  let d4 := { d3 with title := title }
  let d5 ← updateMetaTag d4 ogTypeKey article
  updateMetaTag d5 ogUrlKey href

/-- One synchronisation pass: the document that the body of the effect returns. The
body passes only the five literal keys to `updateMetaTag`, which the selector reads back
as they are, so it always returns (`effectBody_eq_ok`). -/
def syncEffect (ogImage : Option JSString) (content title href : JSString)
    (d : Document) : Document :=
  match effectBody ogImage content title href d with
  | Except.ok e => e
  | Except.error _ => d

/-- The document with no `meta[property]` element at all. -/
def emptyDocument (t : JSString) : Document := { head := [], body := [], title := t }

/-- The registry invariant: no two records carry the same `property`. -/
def UniqueProperties (d : Document) : Prop := (d.metas.map MetaTag.property).Nodup

instance (d : Document) : Decidable (UniqueProperties d) := by
  unfold UniqueProperties; infer_instance

/-- The inputs of one synchronisation pass. -/
structure SyncInput where
  ogImage : Option JSString
  content : JSString
  title : JSString
  href : JSString

/-- A sequence of synchronisation passes, one per input, left to right. -/
def runPasses (d : Document) (inputs : List SyncInput) : Document :=
  inputs.foldl (fun acc i => syncEffect i.ogImage i.content i.title i.href acc) d

/-- The `og:image` records of the registry. -/
def ogImageRecords (d : Document) : List MetaTag :=
  d.metas.filter (fun m => decide (m.property = ogImageKey))

/-- Passes run while no snapshot exists: one per (title, content) edit. -/
def runEdits (href : JSString) (d : Document) (edits : List (JSString × JSString)) :
    Document :=
  edits.foldl (fun acc e => syncEffect none e.2 e.1 href acc) d

/-! ## Component state and event handlers -/

/-- The `useState` cells of the component (lines 6-13). -/
structure PostState where
  title : JSString
  content : JSString
  image : Option JSString
  ogImage : Option JSString
  isLoading : Bool
  darkMode : Bool
  tags : List JSString
  currentTag : JSString
  deriving DecidableEq, Repr

/-- Initial values of the `useState` cells. -/
def PostState.initial : PostState :=
  { title := [], content := [], image := none, ogImage := none, isLoading := false,
    darkMode := false, tags := [], currentTag := [] }

/-- The handler `addTag` (lines 44-49). -/
def addTag (s : PostState) : PostState :=
  if truthy s.currentTag = true ∧ s.currentTag ∉ s.tags then
    { s with tags := s.tags ++ [s.currentTag], currentTag := [] }
  else s

/-- The handler `removeTag(tagToRemove)` (lines 51-53). -/
def removeTag (s : PostState) (tagToRemove : JSString) : PostState :=
  { s with tags := s.tags.filter (fun tag => tag != tagToRemove) }

/-- A call on the tag list: `add t` types `t` into the tag field and invokes `addTag`,
`remove t` invokes `removeTag(t)`. -/
inductive TagOp where
  | add (t : JSString)
  | remove (t : JSString)
  deriving DecidableEq, Repr

/-- One tag call on the component state. -/
def applyTagOp (s : PostState) : TagOp → PostState
  | TagOp.add t => addTag { s with currentTag := t }
  | TagOp.remove t => removeTag s t

/-- The tag list after a sequence of calls, starting from the empty list. -/
def runTagOps (ops : List TagOp) : List JSString :=
  (ops.foldl applyTagOp PostState.initial).tags

/-- Position in `ops` of the first call `add x`. -/
def firstInsertion (ops : List TagOp) (x : JSString) : Nat :=
  ops.indexOf (TagOp.add x)

/-- The calls made after the last `remove x`. -/
def afterLastRemove (x : JSString) (ops : List TagOp) : List TagOp :=
  (ops.reverse.takeWhile (fun op => op != TagOp.remove x)).reverse

/-- Position in `ops` of the first call `add x` made after the last `remove x`. -/
def liveInsertion (ops : List TagOp) (x : JSString) : Nat :=
  (ops.length - (afterLastRemove x ops).length) + (afterLastRemove x ops).indexOf (TagOp.add x)

/-! ## The page: component, document and pending captures -/

/-- Values of the dependency list `[ogImage, content, title]` (line 83). -/
abbrev Deps := Option JSString × JSString × JSString

/-- The running page. `postRef` tells whether `postRef.current` holds the preview
element, `capturing` counts the `html2canvas` promises not yet settled, and
`lastDeps` holds the dependency values of the last run of the effect. -/
structure Page where
  state : PostState
  doc : Document
  href : JSString
  postRef : Bool
  capturing : Nat
  lastDeps : Option Deps
  deriving DecidableEq, Repr

/-- Current values of the dependency list. -/
def Page.deps (w : Page) : Deps := (w.state.ogImage, w.state.content, w.state.title)

/-- A commit of the component: the effect runs on the first commit and on every
commit in which a dependency differs from its value at the previous run. -/
def commit (w : Page) : Page :=
  if w.lastDeps = some w.deps then w
  else
    { w with
      doc := syncEffect w.state.ogImage w.state.content w.state.title w.href w.doc
      lastDeps := some w.deps }

/-- First render of the component in document `d` at address `href`. -/
def mount (d : Document) (href : JSString) : Page :=
  commit { state := PostState.initial, doc := d, href := href, postRef := true,
           capturing := 0, lastDeps := none }

/-- The function `generateOgImage` up to its `await` (lines 31-37): when the preview
element is attached, raise the flag and start one rasterisation. -/
def generateOgImage (w : Page) : Page :=
  if w.postRef then
    { w with state := { w.state with isLoading := true }, capturing := w.capturing + 1 }
  else w

/-- Continuation of `generateOgImage` when the capture yields the data URI `imgData`
(lines 38-40). -/
def captureResolved (w : Page) (imgData : JSString) : Page :=
  { w with
    state := { w.state with ogImage := some imgData, isLoading := false }
    capturing := w.capturing - 1 }

/-- Continuation of `generateOgImage` when `html2canvas` rejects or `toDataURL` throws:
the exception leaves the function, lines 39-40 are not executed. -/
def captureRejected (w : Page) : Page :=
  { w with capturing := w.capturing - 1 }

/-- What can happen to the page. -/
inductive Event where
  | setTitle (v : JSString)
  | setContent (v : JSString)
  | setCurrentTag (v : JSString)
  | addTag
  | removeTag (t : JSString)
  | toggleDarkMode
  | imageLoaded (uri : JSString)
  | clickGenerate
  | captureResolved (imgData : JSString)
  | captureRejected
  deriving DecidableEq, Repr

/-- One event: the handler runs, then the component commits. A click on the
"Generate OG Image" button reaches `generateOgImage` only while the button is
enabled (`disabled={isLoading}`, line 130); a capture can settle only while one is
pending. -/
def step (w : Page) : Event → Page
  | Event.setTitle v => commit { w with state := { w.state with title := v } }
  | Event.setContent v => commit { w with state := { w.state with content := v } }
  | Event.setCurrentTag v => commit { w with state := { w.state with currentTag := v } }
  | Event.addTag => commit { w with state := addTag w.state }
  | Event.removeTag t => commit { w with state := removeTag w.state t }
  | Event.toggleDarkMode => commit { w with state := { w.state with darkMode := !w.state.darkMode } }
  | Event.imageLoaded uri => commit { w with state := { w.state with image := some uri } }
  | Event.clickGenerate => if w.state.isLoading then w else commit (generateOgImage w)
  | Event.captureResolved imgData =>
      if w.capturing = 0 then w else commit (captureResolved w imgData)
  | Event.captureRejected => if w.capturing = 0 then w else commit (captureRejected w)

/-- The page after a sequence of events. -/
def run (w : Page) (events : List Event) : Page := events.foldl step w

/-- Tag calls as page events. -/
def tagEvents : TagOp → List Event
  | TagOp.add t => [Event.setCurrentTag t, Event.addTag]
  | TagOp.remove t => [Event.removeTag t]

/-! ## Auxiliary definitions and sample data -/

/-- A code unit that the string of the selector text takes as it is: not U+0000, not a
double quote, not a backslash and not a newline. -/
def plainUnit (u : UInt16) : Bool := !(u == 0 || u == 0x22 || u == 0x5C || isNewline u)

/-- Well-formed UTF-16: every surrogate is part of a high-low pair. -/
def wellFormed : JSString → Bool
  | [] => true
  | [u] => !isHighSurrogate u && !isLowSurrogate u
  | u :: l :: rest =>
    if isHighSurrogate u then isLowSurrogate l && wellFormed rest
    else !isLowSurrogate u && wellFormed (l :: rest)

/-- A property that the selector text reads back as it is: it contains no double quote,
backslash, line feed, carriage return, form feed or U+0000 and no unpaired surrogate. -/
def SelectorSafe (p : JSString) : Prop := p.all plainUnit = true ∧ wellFormed p = true

instance (p : JSString) : Decidable (SelectorSafe p) := by
  unfold SelectorSafe; infer_instance

/-- The document after `updateMetaTag(p, c)` when the selector text reads `p` back as it
is: the first record of property `p` is overwritten, or a record is appended. -/
def upsert (d : Document) (p c : JSString) : Document :=
  match firstWithProperty d p with
  | some metaTag => setAttributeContent d metaTag c
  | none => appendToHead d { property := p, content := some c }

/-- The first statement of a pass (lines 68-70): the guarded write of `og:image`. -/
def imageStep (ogImage : Option JSString) (d : Document) : Document :=
  match ogImage with
  | some u => if truthy u then upsert d ogImageKey u else d
  | none => d

/-- The property `a"b`, with a double quote inside. -/
def quoteKey : JSString := lit "a" ++ [0x22] ++ lit "b"

/-- The property `og\:x`, with a backslash inside. -/
def escapedKey : JSString := lit "og" ++ [0x5C] ++ lit ":x"

/-- A document whose only record has property `og:x`. -/
def ogxDocument : Document :=
  { head := [{ property := lit "og:x", content := some (lit "kept") }], body := [],
    title := [] }

/-- A document whose head already holds an `og:title` record between two others. -/
def sampleDocument : Document :=
  { head := [{ property := lit "fb:app_id", content := some (lit "1") },
             { property := ogTitleKey, content := some (lit "Old") },
             { property := lit "og:locale", content := none }],
    body := [],
    title := lit "React App" }

/-- The page address used in the samples. -/
def sampleHref : JSString := lit "http://localhost:3000/"

/-- A string of 200 letters `a`. -/
def twoHundredA : JSString := List.replicate 200 97

/-- Four calls in which a removed tag is added again:
`add("x"); add("y"); remove("x"); add("x")`. -/
def reinsertOps : List TagOp :=
  [TagOp.add (lit "x"), TagOp.add (lit "y"), TagOp.remove (lit "x"), TagOp.add (lit "x")]

/-- The page after a sequence of tag calls. -/
def runTagEvents (w : Page) (ops : List TagOp) : Page :=
  ops.foldl (fun acc op => run acc (tagEvents op)) w

/-- The page is in step with its dependencies: the effect has run for the current
values of `[ogImage, content, title]`, and the registry holds a truthy snapshot. -/
def InSync (w : Page) : Prop :=
  w.lastDeps = some w.deps ∧
  ∀ u, w.state.ogImage = some u → truthy u = true →
    getContent w.doc ogImageKey = some (some u)

/-- At most one rasterisation is pending, and one is pending only under the flag. -/
def CaptureGuard (w : Page) : Prop :=
  w.capturing = 0 ∨ (w.capturing = 1 ∧ w.state.isLoading = true)

/-- The page right after a click on "Generate OG Image" in a fresh sample page. -/
def capturingPage : Page := step (mount sampleDocument sampleHref) Event.clickGenerate

/-- A data URI as `canvas.toDataURL('image/png')` returns them. -/
def sampleDataUri : JSString := lit "data:image/png;base64,iVBORw0KGgo="

/-- Events of the sample session: a title is typed, then the button is clicked. -/
def sampleEvents : List Event := [Event.setTitle (lit "Hello"), Event.clickGenerate]

/-! ## Lemmas on the registry primitives -/

theorem findMeta_eq_none {p : JSString} {l : List MetaTag} :
    findMeta p l = none ↔ ∀ x ∈ l, x.property ≠ p := by
  induction l with
  | nil => simp [findMeta]
  | cons m r ih =>
    by_cases h : m.property = p
    · simp [findMeta, h]
    · simp [findMeta, h, ih]

theorem findMeta_split {p : JSString} (c : JSString) {l : List MetaTag} {i : Nat}
    (h : findMeta p l = some i) :
    ∃ pre m post, l = pre ++ m :: post ∧ (∀ x ∈ pre, x.property ≠ p) ∧ m.property = p ∧
      setContentAt c i l = pre ++ { property := p, content := some c } :: post := by
  induction l generalizing i with
  | nil => simp [findMeta] at h
  | cons m r ih =>
    by_cases hm : m.property = p
    · simp [findMeta, hm] at h
      subst h
      refine ⟨[], m, r, rfl, by simp, hm, ?_⟩
      simp [setContentAt, ← hm]
    · simp [findMeta, hm] at h
      obtain ⟨j, hj, rfl⟩ := h
      obtain ⟨pre, m', post, hl, hpre, hm', hset⟩ := ih hj
      refine ⟨m :: pre, m', post, by simp [hl], ?_, hm', ?_⟩
      · intro x hx
        rcases List.mem_cons.1 hx with rfl | hx
        · exact hm
        · exact hpre x hx
      · simp [setContentAt, hset]

theorem find_eq_none_of_forall_ne {p : JSString} {l : List MetaTag}
    (h : ∀ x ∈ l, x.property ≠ p) :
    l.find? (fun m => decide (m.property = p)) = none := by
  simp only [List.find?_eq_none]
  intro x hx
  simpa using h x hx

theorem find_split {p : JSString} (pre : List MetaTag) (m : MetaTag) (post : List MetaTag)
    (hpre : ∀ x ∈ pre, x.property ≠ p) (hm : m.property = p) :
    (pre ++ m :: post).find? (fun m => decide (m.property = p)) = some m := by
  induction pre with
  | nil => simp [hm]
  | cons a pre ih =>
    have ha : a.property ≠ p := hpre a (by simp)
    simp only [List.cons_append, List.find?_cons]
    simp only [ha, decide_False]
    exact ih (fun x hx => hpre x (by simp [hx]))

/-- Shape of the registry after `upsert`: the first record with the given
property is overwritten where it stands, or a record is appended to `head`. -/
theorem upsert_cases (d : Document) (p c : JSString) :
    (∃ pre m post, d.metas = pre ++ m :: post ∧ (∀ x ∈ pre, x.property ≠ p) ∧
        m.property = p ∧
        (upsert d p c).metas = pre ++ { property := p, content := some c } :: post ∧
        (upsert d p c).head.length = d.head.length) ∨
    ((∀ x ∈ d.metas, x.property ≠ p) ∧
        (upsert d p c).head = d.head ++ [{ property := p, content := some c }] ∧
        (upsert d p c).body = d.body) := by
  cases hh : findMeta p d.head with
  | some i =>
    left
    obtain ⟨pre, m, post, hl, hpre, hm, hset⟩ := findMeta_split c hh
    refine ⟨pre, m, post ++ d.body, ?_, hpre, hm, ?_, ?_⟩
    · simp [Document.metas, hl]
    · simp [upsert, firstWithProperty, hh, setAttributeContent, Document.metas, hset]
    · have := congrArg List.length hset
      simp [upsert, firstWithProperty, hh, setAttributeContent] at this ⊢
      rw [this, hl]; simp
  | none =>
    have hhead := findMeta_eq_none.1 hh
    cases hb : findMeta p d.body with
    | some i =>
      left
      obtain ⟨pre, m, post, hl, hpre, hm, hset⟩ := findMeta_split c hb
      refine ⟨d.head ++ pre, m, post, ?_, ?_, hm, ?_, ?_⟩
      · simp [Document.metas, hl]
      · intro x hx
        rcases List.mem_append.1 hx with hx | hx
        · exact hhead x hx
        · exact hpre x hx
      · simp [upsert, firstWithProperty, hh, hb, setAttributeContent, Document.metas, hset]
      · simp [upsert, firstWithProperty, hh, hb, setAttributeContent]
    | none =>
      right
      have hbody := findMeta_eq_none.1 hb
      refine ⟨?_, ?_, ?_⟩
      · intro x hx
        rcases List.mem_append.1 hx with hx | hx
        · exact hhead x hx
        · exact hbody x hx
      · simp [upsert, firstWithProperty, hh, hb, appendToHead]
      · simp [upsert, firstWithProperty, hh, hb, appendToHead]

theorem upsert_title (d : Document) (p c : JSString) :
    (upsert d p c).title = d.title := by
  unfold upsert
  cases firstWithProperty d p with
  | none => rfl
  | some n => cases n <;> rfl

theorem find_skip {q : JSString} (pre : List MetaTag) (a : MetaTag) (post : List MetaTag)
    (ha : a.property ≠ q) :
    (pre ++ a :: post).find? (fun m => decide (m.property = q)) =
      (pre ++ post).find? (fun m => decide (m.property = q)) := by
  simp [List.find?_cons, ha]

theorem getContent_upsert_self (d : Document) (p c : JSString) :
    getContent (upsert d p c) p = some (some c) := by
  unfold getContent
  rcases upsert_cases d p c with ⟨pre, m, post, _, hpre, _, hmetas, _⟩ | ⟨hall, hhead, hbody⟩
  · rw [hmetas, find_split pre _ post hpre rfl]
    rfl
  · have hmetas : (upsert d p c).metas =
        d.head ++ { property := p, content := some c } :: d.body := by
      simp [Document.metas, hhead, hbody]
    rw [hmetas, find_split d.head _ d.body (fun x hx => hall x (by simp [Document.metas, hx])) rfl]
    rfl

theorem find_upsert_of_ne (d : Document) {p q : JSString} (c : JSString) (h : q ≠ p) :
    (upsert d p c).metas.find? (fun m => decide (m.property = q)) =
      d.metas.find? (fun m => decide (m.property = q)) := by
  rcases upsert_cases d p c with ⟨pre, m, post, hd, _, hm, hmetas, _⟩ | ⟨_, hhead, hbody⟩
  · rw [hmetas, hd, find_skip pre _ post (fun e => h e.symm),
      find_skip pre m post (fun e => h (hm ▸ e).symm)]
  · have hmetas : (upsert d p c).metas =
        d.head ++ { property := p, content := some c } :: d.body := by
      simp [Document.metas, hhead, hbody]
    rw [hmetas, find_skip d.head _ d.body (fun e => h e.symm)]
    rfl

theorem getContent_upsert_of_ne (d : Document) {p q : JSString} (c : JSString)
    (h : q ≠ p) : getContent (upsert d p c) q = getContent d q := by
  unfold getContent
  rw [find_upsert_of_ne d c h]

theorem upsert_eq_self {d : Document} {p c : JSString}
    (h : getContent d p = some (some c)) : upsert d p c = d := by
  unfold getContent at h
  rcases upsert_cases d p c with ⟨pre, m, post, hd, hpre, hm, hmetas, hlen⟩ | ⟨hall, _, _⟩
  · rw [hd, find_split pre m post hpre hm] at h
    have hc : m.content = some c := by simpa using h
    have hmeq : m = { property := p, content := some c } := by
      cases m
      simp_all
    have hsame : (upsert d p c).metas = d.metas := by rw [hmetas, hd, hmeq]
    have hsplit := List.append_inj hsame hlen
    have ht := upsert_title d p c
    cases hu : upsert d p c with
    | mk h1 b1 t1 =>
      cases d with
      | mk h0 b0 t0 =>
        rw [hu] at hsplit ht
        simp only at hsplit ht
        rw [hsplit.1, hsplit.2, ht]
  · rw [find_eq_none_of_forall_ne hall] at h
    simp at h

theorem length_metas_upsert_of_mem {d : Document} {p : JSString} (c : JSString)
    (h : ∃ x ∈ d.metas, x.property = p) :
    (upsert d p c).metas.length = d.metas.length := by
  rcases upsert_cases d p c with ⟨pre, m, post, hd, _, _, hmetas, _⟩ | ⟨hall, _, _⟩
  · rw [hmetas, hd]; simp
  · obtain ⟨x, hx, hxp⟩ := h
    exact absurd hxp (hall x hx)

/-! ## Lemmas on the selector text -/

theorem dropLiteral_append (l t : JSString) : dropLiteral l (l ++ t) = some t := by
  induction l with
  | nil => cases t <;> rfl
  | cons a l ih => simp [dropLiteral, ih]

theorem plainUnit_iff (u : UInt16) :
    plainUnit u = true ↔ u ≠ 0 ∧ u ≠ 0x22 ∧ u ≠ 0x5C ∧ isNewline u = false := by
  simp [plainUnit, not_or, and_assoc]

theorem scanValue_plain (u e : UInt16) (rest : JSString) (hp : plainUnit u = true)
    (hh : isHighSurrogate u = false) (hl : isLowSurrogate u = false) :
    scanValue (u :: e :: rest) = (scanValue (e :: rest)).push u := by
  obtain ⟨h0, hq, hb, hn⟩ := (plainUnit_iff u).1 hp
  simp [scanValue, h0, hq, hb, hn, hh, hl]

theorem scanValue_pair (u e : UInt16) (rest : JSString) (hp : plainUnit u = true)
    (hh : isHighSurrogate u = true) (hl : isLowSurrogate e = true) :
    scanValue (u :: e :: rest) = ((scanValue rest).push e).push u := by
  obtain ⟨h0, hq, hb, hn⟩ := (plainUnit_iff u).1 hp
  simp [scanValue, h0, hq, hb, hn, hh, hl]

/-- A selector-safe text followed by the closing `"]` is read back as it is. -/
theorem scanValue_safe : ∀ p : JSString, SelectorSafe p →
    scanValue (p ++ [0x22, 0x5D]) = SelectorValue.value p
  | [], _ => by decide
  | [u], h => by
    obtain ⟨hall, hwf⟩ := h
    have hp : plainUnit u = true := by simpa using hall
    have hs : isHighSurrogate u = false ∧ isLowSurrogate u = false := by
      simpa [wellFormed] using hwf
    have h0 : scanValue [0x22, 0x5D] = SelectorValue.value [] := by decide
    show scanValue (u :: 0x22 :: [0x5D]) = _
    rw [scanValue_plain u _ _ hp hs.1 hs.2, h0]
    rfl
  | u :: l :: rest, h => by
    obtain ⟨hall, hwf⟩ := h
    have hall2 : plainUnit u = true ∧ plainUnit l = true ∧ rest.all plainUnit = true := by
      simpa [List.all_cons, and_assoc] using hall
    show scanValue (u :: l :: (rest ++ [0x22, 0x5D])) = _
    by_cases hh : isHighSurrogate u = true
    · have hw : isLowSurrogate l = true ∧ wellFormed rest = true := by
        simpa [wellFormed, hh] using hwf
      rw [scanValue_pair u l _ hall2.1 hh hw.1, scanValue_safe rest ⟨hall2.2.2, hw.2⟩]
      rfl
    · have hh2 : isHighSurrogate u = false := by simpa using hh
      have hw : isLowSurrogate u = false ∧ wellFormed (l :: rest) = true := by
        simpa [wellFormed, hh2] using hwf
      have hrec := scanValue_safe (l :: rest)
        ⟨by simp [List.all_cons, hall2.2.1, hall2.2.2], hw.2⟩
      rw [scanValue_plain u l _ hall2.1 hh2 hw.1]
      rw [List.cons_append] at hrec
      rw [hrec]
      rfl

theorem parseSelector_safe {p : JSString} (h : SelectorSafe p) :
    parseSelector (selectorText p) = SelectorValue.value p := by
  have ht : selectorText p = (lit "meta[property=" ++ [0x22]) ++ (p ++ [0x22, 0x5D]) := by
    have hb : lit "]" = [0x5D] := by decide
    simp [selectorText, hb, List.append_assoc]
  rw [parseSelector, ht, dropLiteral_append]
  exact scanValue_safe p h

/-- When the selector text reads `p` back as it is, the call returns and yields the
upsert of `p`. -/
theorem updateMetaTag_of_value {p : JSString} (d : Document) (c : JSString)
    (h : parseSelector (selectorText p) = SelectorValue.value p) :
    updateMetaTag d p c = Except.ok (upsert d p c) := by
  unfold updateMetaTag querySelector upsert
  rw [h]
  dsimp only
  cases firstWithProperty d p <;> rfl

theorem keys_safe :
    SelectorSafe ogImageKey ∧ SelectorSafe ogDescriptionKey ∧ SelectorSafe ogTitleKey ∧
    SelectorSafe ogTypeKey ∧ SelectorSafe ogUrlKey := by decide

/-! ## Lemmas on the synchronisation pass -/

theorem keys_distinct :
    ogImageKey ≠ ogDescriptionKey ∧ ogImageKey ≠ ogTitleKey ∧ ogImageKey ≠ ogTypeKey ∧
    ogImageKey ≠ ogUrlKey ∧ ogDescriptionKey ≠ ogTitleKey ∧ ogDescriptionKey ≠ ogTypeKey ∧
    ogDescriptionKey ≠ ogUrlKey ∧ ogTitleKey ≠ ogTypeKey ∧ ogTitleKey ≠ ogUrlKey ∧
    ogTypeKey ≠ ogUrlKey := by decide

theorem getContent_setTitle (d : Document) (t q : JSString) :
    getContent { d with title := t } q = getContent d q := rfl

/-- The body of the effect never throws: it returns the five upserts in turn. -/
theorem effectBody_eq_ok (og : Option JSString) (content title href : JSString)
    (d : Document) :
    effectBody og content title href d =
      Except.ok (upsert
        (upsert
          { upsert (upsert (imageStep og d) ogDescriptionKey (slice content 0 160))
              ogTitleKey title with title := title }
          ogTypeKey article)
        ogUrlKey href) := by
  obtain ⟨k1, k2, k3, k4, k5⟩ := keys_safe
  have e1 := fun (d : Document) (c : JSString) =>
    updateMetaTag_of_value d c (parseSelector_safe k1)
  have e2 := fun (d : Document) (c : JSString) =>
    updateMetaTag_of_value d c (parseSelector_safe k2)
  have e3 := fun (d : Document) (c : JSString) =>
    updateMetaTag_of_value d c (parseSelector_safe k3)
  have e4 := fun (d : Document) (c : JSString) =>
    updateMetaTag_of_value d c (parseSelector_safe k4)
  have e5 := fun (d : Document) (c : JSString) =>
    updateMetaTag_of_value d c (parseSelector_safe k5)
  unfold effectBody imageStep
  cases og with
  | none =>
    simp only [e2, e3, e4, e5, bind, Except.bind, pure, Except.pure]
  | some u =>
    by_cases hu : truthy u = true
    · simp only [hu, if_true, e1, e2, e3, e4, e5, bind, Except.bind, pure, Except.pure]
    · simp only [hu, e2, e3, e4, e5, bind, Except.bind, pure, Except.pure]
      rfl

theorem syncEffect_eq (og : Option JSString) (content title href : JSString) (d : Document) :
    syncEffect og content title href d =
      upsert
        (upsert
          { upsert (upsert (imageStep og d) ogDescriptionKey (slice content 0 160))
              ogTitleKey title with title := title }
          ogTypeKey article)
        ogUrlKey href := by
  unfold syncEffect
  rw [effectBody_eq_ok]

theorem imageStep_title (og : Option JSString) (d : Document) :
    (imageStep og d).title = d.title := by
  unfold imageStep
  cases og with
  | none => rfl
  | some u =>
    by_cases h : truthy u = true
    · simp [h, upsert_title]
    · simp [h]

theorem getContent_imageStep_of_ne (og : Option JSString) (d : Document) {q : JSString}
    (h : q ≠ ogImageKey) : getContent (imageStep og d) q = getContent d q := by
  unfold imageStep
  cases og with
  | none => rfl
  | some u =>
    by_cases hu : truthy u = true
    · simp [hu, getContent_upsert_of_ne d u h]
    · simp [hu]

theorem getContent_imageStep_self (d : Document) {u : JSString} (hu : truthy u = true) :
    getContent (imageStep (some u) d) ogImageKey = some (some u) := by
  simp [imageStep, hu, getContent_upsert_self]

theorem imageStep_eq_self {og : Option JSString} {d : Document}
    (h : ∀ u, og = some u → truthy u = true → getContent d ogImageKey = some (some u)) :
    imageStep og d = d := by
  unfold imageStep
  cases og with
  | none => rfl
  | some u =>
    by_cases hu : truthy u = true
    · simp [hu, upsert_eq_self (h u rfl hu)]
    · simp [hu]

/-- What a pass leaves in the document. -/
theorem syncEffect_contents (og : Option JSString) (content title href : JSString)
    (d : Document) :
    (syncEffect og content title href d).title = title ∧
    getContent (syncEffect og content title href d) ogUrlKey = some (some href) ∧
    getContent (syncEffect og content title href d) ogTypeKey = some (some article) ∧
    getContent (syncEffect og content title href d) ogTitleKey = some (some title) ∧
    getContent (syncEffect og content title href d) ogDescriptionKey =
      some (some (slice content 0 160)) ∧
    (∀ u, og = some u → truthy u = true →
      getContent (syncEffect og content title href d) ogImageKey = some (some u)) := by
  obtain ⟨h1, h2, h3, h4, h5, h6, h7, h8, h9, h10⟩ := keys_distinct
  rw [syncEffect_eq]
  refine ⟨?_, ?_, ?_, ?_, ?_, ?_⟩
  · rw [upsert_title, upsert_title]
  · exact getContent_upsert_self _ _ _
  · rw [getContent_upsert_of_ne _ _ h10]
    exact getContent_upsert_self _ _ _
  · rw [getContent_upsert_of_ne _ _ h9, getContent_upsert_of_ne _ _ h8,
      getContent_setTitle]
    exact getContent_upsert_self _ _ _
  · rw [getContent_upsert_of_ne _ _ h7, getContent_upsert_of_ne _ _ h6,
      getContent_setTitle, getContent_upsert_of_ne _ _ h5]
    exact getContent_upsert_self _ _ _
  · intro u hu ht
    subst hu
    rw [getContent_upsert_of_ne _ _ h4, getContent_upsert_of_ne _ _ h3,
      getContent_setTitle, getContent_upsert_of_ne _ _ h2,
      getContent_upsert_of_ne _ _ h1]
    exact getContent_imageStep_self _ ht

/-- A document that already holds every value of a pass is left as it is. -/
theorem syncEffect_eq_self {og : Option JSString} {content title href : JSString}
    {d : Document} (ht : d.title = title)
    (hurl : getContent d ogUrlKey = some (some href))
    (htype : getContent d ogTypeKey = some (some article))
    (htitle : getContent d ogTitleKey = some (some title))
    (hdesc : getContent d ogDescriptionKey = some (some (slice content 0 160)))
    (himg : ∀ u, og = some u → truthy u = true → getContent d ogImageKey = some (some u)) :
    syncEffect og content title href d = d := by
  rw [syncEffect_eq, imageStep_eq_self himg, upsert_eq_self hdesc,
    upsert_eq_self htitle]
  have hd : ({ d with title := title } : Document) = d := by
    cases d
    simp only at ht
    rw [ht]
  rw [hd, upsert_eq_self htype, upsert_eq_self hurl]

theorem map_property_upsert (d : Document) (p c : JSString) :
    (upsert d p c).metas.map MetaTag.property = d.metas.map MetaTag.property ∨
    ((∀ x ∈ d.metas, x.property ≠ p) ∧
      (upsert d p c).metas.map MetaTag.property =
        d.head.map MetaTag.property ++ p :: d.body.map MetaTag.property) := by
  rcases upsert_cases d p c with ⟨pre, m, post, hd, _, hm, hmetas, _⟩ | ⟨hall, hhead, hbody⟩
  · left
    rw [hmetas, hd]
    simp [hm]
  · right
    refine ⟨hall, ?_⟩
    simp [Document.metas, hhead, hbody]

theorem upsert_unique {d : Document} (p c : JSString) (h : UniqueProperties d) :
    UniqueProperties (upsert d p c) := by
  unfold UniqueProperties at *
  rcases map_property_upsert d p c with he | ⟨hall, he⟩
  · rw [he]; exact h
  · rw [he]
    have hperm : (d.head.map MetaTag.property ++ p :: d.body.map MetaTag.property).Perm
        (p :: (d.head.map MetaTag.property ++ d.body.map MetaTag.property)) :=
      List.perm_middle
    rw [hperm.nodup_iff, List.nodup_cons]
    refine ⟨?_, ?_⟩
    · intro hp
      rw [← List.map_append] at hp
      obtain ⟨x, hx, hxp⟩ := List.mem_map.1 hp
      exact hall x hx hxp
    · rw [← List.map_append]
      exact h

theorem imageStep_unique {d : Document} (og : Option JSString) (h : UniqueProperties d) :
    UniqueProperties (imageStep og d) := by
  unfold imageStep
  cases og with
  | none => exact h
  | some u =>
    by_cases hu : truthy u = true
    · simp only [hu, if_true]; exact upsert_unique _ _ h
    · simp only [hu]; exact h

theorem syncEffect_unique {d : Document} (og : Option JSString) (content title href : JSString)
    (h : UniqueProperties d) : UniqueProperties (syncEffect og content title href d) := by
  rw [syncEffect_eq]
  apply upsert_unique
  apply upsert_unique
  have h3 : UniqueProperties
      (upsert (upsert (imageStep og d) ogDescriptionKey (slice content 0 160))
        ogTitleKey title) :=
    upsert_unique _ _ (upsert_unique _ _ (imageStep_unique og h))
  exact h3

theorem runPasses_unique {d : Document} (inputs : List SyncInput) (h : UniqueProperties d) :
    UniqueProperties (runPasses d inputs) := by
  induction inputs generalizing d with
  | nil => exact h
  | cons i r ih => exact ih (syncEffect_unique i.ogImage i.content i.title i.href h)

theorem filter_upsert_of_ne (d : Document) {p q : JSString} (c : JSString) (h : q ≠ p) :
    (upsert d p c).metas.filter (fun m => decide (m.property = q)) =
      d.metas.filter (fun m => decide (m.property = q)) := by
  rcases upsert_cases d p c with ⟨pre, m, post, hd, _, hm, hmetas, _⟩ | ⟨_, hhead, hbody⟩
  · rw [hmetas, hd]
    have h1 : ¬ p = q := fun e => h e.symm
    have h2 : ¬ m.property = q := fun e => h (hm ▸ e).symm
    simp [List.filter_cons, h1, h2]
  · have h1 : ¬ p = q := fun e => h e.symm
    simp [Document.metas, hhead, hbody, List.filter_cons, h1]

theorem ogImageRecords_syncEffect_none (content title href : JSString) (d : Document) :
    ogImageRecords (syncEffect none content title href d) = ogImageRecords d := by
  obtain ⟨h1, h2, h3, h4, _⟩ := keys_distinct
  unfold ogImageRecords
  rw [syncEffect_eq, filter_upsert_of_ne _ _ h4, filter_upsert_of_ne _ _ h3]
  have : ∀ e : Document, ({ e with title := title } : Document).metas = e.metas := fun _ => rfl
  rw [this, filter_upsert_of_ne _ _ h2, filter_upsert_of_ne _ _ h1]
  rfl

theorem ogImageRecords_runEdits (href : JSString) (d : Document)
    (edits : List (JSString × JSString)) :
    ogImageRecords (runEdits href d edits) = ogImageRecords d := by
  induction edits generalizing d with
  | nil => rfl
  | cons e r ih =>
    have := ih (syncEffect none e.2 e.1 href d)
    rw [ogImageRecords_syncEffect_none] at this
    exact this

theorem getContent_eq_none_of_ogImageRecords {d : Document} (h : ogImageRecords d = []) :
    getContent d ogImageKey = none := by
  unfold getContent
  unfold ogImageRecords at h
  rw [List.filter_eq_nil_iff] at h
  rw [find_eq_none_of_forall_ne (fun x hx => by simpa using h x hx)]
  rfl

/-! ## The registry: upsert, idempotence, invariant, policy entries -/

/-- C1 as stated fails for properties that the selector text does not read back as
they are. For `a"b` no record has that property, yet the call throws a `SyntaxError`
and creates nothing. For `og\:x` the selector looks up `og:x`: in a document holding
only an `og:x` record that record is overwritten and no record is created, and two
calls on a document without records create two records of property `og\:x`. -/
theorem updateMetaTag_unsafe_property :
    ((∀ x ∈ sampleDocument.metas, x.property ≠ quoteKey) ∧
      updateMetaTag sampleDocument quoteKey (lit "c") = Except.error Failure.syntaxError) ∧
    ((∀ x ∈ ogxDocument.metas, x.property ≠ escapedKey) ∧
      updateMetaTag ogxDocument escapedKey (lit "c") =
        Except.ok { head := [{ property := lit "og:x", content := some (lit "c") }],
                    body := [], title := [] }) ∧
    (updateMetaTag (emptyDocument []) escapedKey (lit "c") =
        Except.ok { head := [{ property := escapedKey, content := some (lit "c") }],
                    body := [], title := [] } ∧
      updateMetaTag
        { head := [{ property := escapedKey, content := some (lit "c") }], body := [],
          title := [] } escapedKey (lit "d") =
        Except.ok { head := [{ property := escapedKey, content := some (lit "c") },
                             { property := escapedKey, content := some (lit "d") }],
                    body := [], title := [] }) := by
  refine ⟨⟨by decide, rfl⟩, ⟨by decide, rfl⟩, rfl, rfl⟩

/-- C1, amended. Upsert by property, for every property `p` that the selector text
reads back as it is (no double quote, backslash, line feed, carriage return, form feed
or U+0000 and no unpaired surrogate): the call returns; if a record with property `p`
exists, the first such record gets content `c` where it stands, the number of records is
unchanged and every other record is unchanged; if no record with property `p` exists,
exactly one record `(p, c)` is created (as last child of `head`) and every existing
record is unchanged. The title is untouched in both cases. -/
theorem updateMetaTag_upsert (d : Document) (p c : JSString) (hp : SelectorSafe p) :
    ∃ e, updateMetaTag d p c = Except.ok e ∧
      ((∃ x ∈ d.metas, x.property = p) →
        ∃ pre m post, d.metas = pre ++ m :: post ∧ (∀ x ∈ pre, x.property ≠ p) ∧
          m.property = p ∧
          e.metas = pre ++ { m with content := some c } :: post ∧
          e.metas.length = d.metas.length ∧
          e.head.length = d.head.length) ∧
      ((∀ x ∈ d.metas, x.property ≠ p) →
        e.head = d.head ++ [{ property := p, content := some c }] ∧
        e.body = d.body ∧
        e.metas.length = d.metas.length + 1) ∧
      e.title = d.title := by
  refine ⟨upsert d p c, updateMetaTag_of_value d c (parseSelector_safe hp), ?_, ?_,
    upsert_title d p c⟩
  · intro hex
    rcases upsert_cases d p c with ⟨pre, m, post, hd, hpre, hm, hmetas, hlen⟩ | ⟨hall, _, _⟩
    · refine ⟨pre, m, post, hd, hpre, hm, ?_, ?_, hlen⟩
      · rw [hmetas, ← hm]
      · rw [hmetas, hd]; simp
    · obtain ⟨x, hx, hxp⟩ := hex
      exact absurd hxp (hall x hx)
  · intro hall
    rcases upsert_cases d p c with ⟨pre, m, post, hd, _, hm, _, _⟩ | ⟨_, hhead, hbody⟩
    · exact absurd hm (hall m (by rw [hd]; simp))
    · refine ⟨hhead, hbody, ?_⟩
      simp [Document.metas, hhead, hbody]
      omega

theorem updateMetaTag_upsert_witness :
    (SelectorSafe ogTitleKey ∧ (∃ x ∈ sampleDocument.metas, x.property = ogTitleKey) ∧
      ∃ e, updateMetaTag sampleDocument ogTitleKey (lit "New") = Except.ok e ∧
        ∃ pre m post, sampleDocument.metas = pre ++ m :: post ∧
          (∀ x ∈ pre, x.property ≠ ogTitleKey) ∧ m.property = ogTitleKey ∧
          e.metas = pre ++ { m with content := some (lit "New") } :: post ∧
          e.metas.length = sampleDocument.metas.length ∧
          e.head.length = sampleDocument.head.length) ∧
    (SelectorSafe ogUrlKey ∧ (∀ x ∈ sampleDocument.metas, x.property ≠ ogUrlKey) ∧
      ∃ e, updateMetaTag sampleDocument ogUrlKey sampleHref = Except.ok e ∧
        e.head = sampleDocument.head ++ [{ property := ogUrlKey, content := some sampleHref }] ∧
        e.body = sampleDocument.body ∧
        e.metas.length = sampleDocument.metas.length + 1) :=
  ⟨⟨by decide, by decide,
    (updateMetaTag_upsert sampleDocument ogTitleKey (lit "New") (by decide)).elim
      (fun e h => ⟨e, h.1, h.2.1 (by decide)⟩)⟩,
   ⟨by decide, by decide,
    (updateMetaTag_upsert sampleDocument ogUrlKey sampleHref (by decide)).elim
      (fun e h => ⟨e, h.1, h.2.2.1 (by decide)⟩)⟩⟩

/-- C2. A synchronisation pass is idempotent: a second pass with the same snapshot,
content, title and address leaves the document exactly as the first pass left it, so it
creates no record and keeps the registry size, and each property written holds the last
value written. -/
theorem syncEffect_idempotent (og : Option JSString) (content title href : JSString)
    (d : Document) :
    syncEffect og content title href (syncEffect og content title href d) =
      syncEffect og content title href d ∧
    (syncEffect og content title href (syncEffect og content title href d)).metas.length =
      (syncEffect og content title href d).metas.length ∧
    getContent (syncEffect og content title href (syncEffect og content title href d))
      ogTitleKey = some (some title) ∧
    getContent (syncEffect og content title href (syncEffect og content title href d))
      ogDescriptionKey = some (some (slice content 0 160)) ∧
    getContent (syncEffect og content title href (syncEffect og content title href d))
      ogTypeKey = some (some article) ∧
    getContent (syncEffect og content title href (syncEffect og content title href d))
      ogUrlKey = some (some href) ∧
    (∀ u, og = some u → truthy u = true →
      getContent (syncEffect og content title href (syncEffect og content title href d))
        ogImageKey = some (some u)) := by
  obtain ⟨ht, hurl, htype, htitle, hdesc, himg⟩ := syncEffect_contents og content title href d
  have hfix := syncEffect_eq_self ht hurl htype htitle hdesc himg
  rw [hfix]
  exact ⟨rfl, rfl, htitle, hdesc, htype, hurl, himg⟩

theorem syncEffect_idempotent_witness :
    truthy sampleDataUri = true ∧
    getContent
      (syncEffect (some sampleDataUri) twoHundredA (lit "Hello") sampleHref
        (syncEffect (some sampleDataUri) twoHundredA (lit "Hello") sampleHref sampleDocument))
      ogImageKey = some (some sampleDataUri) :=
  ⟨by decide,
   (syncEffect_idempotent (some sampleDataUri) twoHundredA (lit "Hello") sampleHref
      sampleDocument).2.2.2.2.2.2 sampleDataUri rfl (by decide)⟩

/-- C3. A synchronisation pass preserves the invariant "at most one record per
property"; hence the invariant holds after any sequence of passes started on a document
without records. -/
theorem syncEffect_preserves_unique (og : Option JSString) (content title href : JSString)
    (d : Document) :
    (UniqueProperties d → UniqueProperties (syncEffect og content title href d)) ∧
    (∀ (t : JSString) (inputs : List SyncInput),
      UniqueProperties (runPasses (emptyDocument t) inputs)) := by
  refine ⟨syncEffect_unique og content title href, ?_⟩
  intro t inputs
  apply runPasses_unique
  simp [UniqueProperties, emptyDocument, Document.metas]

theorem syncEffect_preserves_unique_witness :
    UniqueProperties sampleDocument ∧
    UniqueProperties
      (syncEffect (some (lit "data:,")) twoHundredA (lit "Hello") sampleHref sampleDocument) :=
  ⟨by decide,
   (syncEffect_preserves_unique (some (lit "data:,")) twoHundredA (lit "Hello") sampleHref
      sampleDocument).1 (by decide)⟩

theorem syncEffect_emptyDocument (content title href t0 : JSString) :
    syncEffect none content title href (emptyDocument t0) =
      { head := [{ property := ogDescriptionKey, content := some (slice content 0 160) },
                 { property := ogTitleKey, content := some title },
                 { property := ogTypeKey, content := some article },
                 { property := ogUrlKey, content := some href }],
        body := [],
        title := title } := by
  obtain ⟨_, _, _, _, h5, h6, h7, h8, h9, h10⟩ := keys_distinct
  rw [syncEffect_eq]
  simp [imageStep, emptyDocument, upsert, firstWithProperty, findMeta, appendToHead,
    h5, h6, h7, h8, h9, h10]

/-- C4. Fixed policy entries with no snapshot: one pass without snapshot on a document
without records leaves exactly the records `og:description` = first 160 code units of
the content, `og:title` = title, `og:type` = "article", `og:url` = page address, no
`og:image` record, and the document title equal to the title; in particular for title
"Hello" and content 200 times "a" the description is 160 times "a". -/
theorem syncEffect_fixed_policy :
    (∀ content title href t0 : JSString,
      (syncEffect none content title href (emptyDocument t0)).metas =
        [{ property := ogDescriptionKey, content := some (content.take 160) },
         { property := ogTitleKey, content := some title },
         { property := ogTypeKey, content := some article },
         { property := ogUrlKey, content := some href }] ∧
      getContent (syncEffect none content title href (emptyDocument t0)) ogTitleKey =
        some (some title) ∧
      getContent (syncEffect none content title href (emptyDocument t0)) ogDescriptionKey =
        some (some (content.take 160)) ∧
      getContent (syncEffect none content title href (emptyDocument t0)) ogTypeKey =
        some (some article) ∧
      getContent (syncEffect none content title href (emptyDocument t0)) ogUrlKey =
        some (some href) ∧
      getContent (syncEffect none content title href (emptyDocument t0)) ogImageKey = none ∧
      ogImageRecords (syncEffect none content title href (emptyDocument t0)) = [] ∧
      (syncEffect none content title href (emptyDocument t0)).title = title) ∧
    (∀ href t0 : JSString,
      (syncEffect none twoHundredA (lit "Hello") href (emptyDocument t0)).metas =
        [{ property := lit "og:description", content := some (List.replicate 160 97) },
         { property := lit "og:title", content := some (lit "Hello") },
         { property := lit "og:type", content := some (lit "article") },
         { property := lit "og:url", content := some href }] ∧
      (syncEffect none twoHundredA (lit "Hello") href (emptyDocument t0)).title =
        lit "Hello") := by
  have hslice : ∀ content : JSString, slice content 0 160 = content.take 160 := by
    intro content; simp [slice]
  have himg : ∀ content title href t0 : JSString,
      ogImageRecords (syncEffect none content title href (emptyDocument t0)) = [] := by
    intro content title href t0
    rw [ogImageRecords_syncEffect_none]
    rfl
  refine ⟨?_, ?_⟩
  · intro content title href t0
    obtain ⟨ht, hurl, htype, htitle, hdesc, _⟩ :=
      syncEffect_contents none content title href (emptyDocument t0)
    refine ⟨?_, htitle, ?_, htype, hurl,
      getContent_eq_none_of_ogImageRecords (himg content title href t0),
      himg content title href t0, ht⟩
    · rw [syncEffect_emptyDocument, ← hslice]; rfl
    · rw [hdesc, hslice]
  · intro href t0
    rw [syncEffect_emptyDocument, hslice]
    refine ⟨?_, rfl⟩
    have : (twoHundredA.take 160 : JSString) = List.replicate 160 97 := by decide
    simp only [Document.metas, this]
    rfl

/-- C5. Description truncation: the `og:description` written by a pass is
`content.slice(0, 160)`; for content longer than 160 code units it is the prefix of
length exactly 160, and for content of at most 160 code units it is the whole content. -/
theorem description_truncation (og : Option JSString) (content title href : JSString)
    (d : Document) :
    getContent (syncEffect og content title href d) ogDescriptionKey =
      some (some (slice content 0 160)) ∧
    (160 < content.length →
      (slice content 0 160).length = 160 ∧ slice content 0 160 <+: content ∧
      slice content 0 160 = content.take 160) ∧
    (content.length ≤ 160 → slice content 0 160 = content) := by
  refine ⟨(syncEffect_contents og content title href d).2.2.2.2.1, ?_, ?_⟩
  · intro h
    refine ⟨?_, ?_, ?_⟩
    · simp [slice]; omega
    · simp only [slice, List.drop_zero]; exact List.take_prefix 160 content
    · simp [slice]
  · intro h
    simp only [slice, List.drop_zero]
    exact List.take_of_length_le h

theorem description_truncation_witness :
    (160 < twoHundredA.length ∧
      (slice twoHundredA 0 160).length = 160 ∧ slice twoHundredA 0 160 <+: twoHundredA ∧
      slice twoHundredA 0 160 = twoHundredA.take 160) ∧
    ((lit "Hello").length ≤ 160 ∧ slice (lit "Hello") 0 160 = lit "Hello") :=
  ⟨⟨by rw [twoHundredA, List.length_replicate]; decide,
    (description_truncation none twoHundredA (lit "Hello") sampleHref sampleDocument).2.1
      (by rw [twoHundredA, List.length_replicate]; decide)⟩,
   ⟨by decide,
    (description_truncation none (lit "Hello") (lit "Hello") sampleHref sampleDocument).2.2
      (by decide)⟩⟩

/-- C6. While no snapshot exists, no `og:image` record appears: from a document without
`og:image` record, after every sequence of title/content edits, each followed by a pass
with `ogImage` null, the document has no `og:image` record; a pass without snapshot
leaves the `og:image` records exactly as they are. -/
theorem no_ogImage_without_snapshot (href : JSString) (d : Document)
    (h : ogImageRecords d = []) :
    (∀ edits : List (JSString × JSString),
      ogImageRecords (runEdits href d edits) = [] ∧
      getContent (runEdits href d edits) ogImageKey = none) ∧
    (∀ (e : Document) (content title : JSString),
      ogImageRecords (syncEffect none content title href e) = ogImageRecords e) := by
  refine ⟨?_, fun e content title => ogImageRecords_syncEffect_none content title href e⟩
  intro edits
  have h1 : ogImageRecords (runEdits href d edits) = [] := by
    rw [ogImageRecords_runEdits, h]
  exact ⟨h1, getContent_eq_none_of_ogImageRecords h1⟩

theorem no_ogImage_without_snapshot_witness :
    ogImageRecords sampleDocument = [] ∧
    ((∀ edits : List (JSString × JSString),
      ogImageRecords (runEdits sampleHref sampleDocument edits) = [] ∧
      getContent (runEdits sampleHref sampleDocument edits) ogImageKey = none) ∧
    (∀ (e : Document) (content title : JSString),
      ogImageRecords (syncEffect none content title sampleHref e) = ogImageRecords e)) :=
  ⟨by decide, no_ogImage_without_snapshot sampleHref sampleDocument (by decide)⟩

/-! ## The tag list -/

theorem truthy_iff (t : JSString) : truthy t = true ↔ t ≠ [] := by
  cases t <;> simp [truthy]

theorem runTagOps_snoc_add (ops : List TagOp) (t : JSString) :
    runTagOps (ops ++ [TagOp.add t]) =
      if t ≠ [] ∧ t ∉ runTagOps ops then runTagOps ops ++ [t] else runTagOps ops := by
  unfold runTagOps
  rw [List.foldl_append]
  simp only [List.foldl_cons, List.foldl_nil, applyTagOp, addTag, truthy_iff]
  by_cases h : t ≠ [] ∧ t ∉ (List.foldl applyTagOp PostState.initial ops).tags
  · rw [if_pos h, if_pos h]
  · rw [if_neg h, if_neg h]

theorem runTagOps_snoc_remove (ops : List TagOp) (t : JSString) :
    runTagOps (ops ++ [TagOp.remove t]) = (runTagOps ops).filter (fun tag => tag != t) := by
  unfold runTagOps
  rw [List.foldl_append]
  rfl

theorem afterLastRemove_snoc (x : JSString) (ops : List TagOp) (op : TagOp) :
    afterLastRemove x (ops ++ [op]) =
      if op = TagOp.remove x then [] else afterLastRemove x ops ++ [op] := by
  unfold afterLastRemove
  rw [List.reverse_append, List.reverse_singleton, List.singleton_append, List.takeWhile_cons]
  by_cases h : op = TagOp.remove x
  · simp [h]
  · simp [h]

theorem afterLastRemove_suffix (x : JSString) (ops : List TagOp) :
    ∃ pre, ops = pre ++ afterLastRemove x ops := by
  refine ⟨(ops.reverse.dropWhile (fun op => op != TagOp.remove x)).reverse, ?_⟩
  unfold afterLastRemove
  rw [← List.reverse_append, List.takeWhile_append_dropWhile, List.reverse_reverse]

theorem afterLastRemove_length_le (x : JSString) (ops : List TagOp) :
    (afterLastRemove x ops).length ≤ ops.length := by
  obtain ⟨pre, h⟩ := afterLastRemove_suffix x ops
  have := congrArg List.length h
  rw [List.length_append] at this
  omega

theorem liveInsertion_snoc_of_mem {x : JSString} {ops : List TagOp} (op : TagOp)
    (hop : op ≠ TagOp.remove x) (h : TagOp.add x ∈ afterLastRemove x ops) :
    liveInsertion (ops ++ [op]) x = liveInsertion ops x := by
  unfold liveInsertion
  rw [afterLastRemove_snoc, if_neg hop, List.indexOf_append_of_mem h]
  simp only [List.length_append, List.length_singleton]
  have := afterLastRemove_length_le x ops
  omega

theorem liveInsertion_snoc_new {x : JSString} {ops : List TagOp}
    (h : TagOp.add x ∉ afterLastRemove x ops) :
    liveInsertion (ops ++ [TagOp.add x]) x = ops.length := by
  unfold liveInsertion
  have hop : TagOp.add x ≠ TagOp.remove x := by simp
  rw [afterLastRemove_snoc, if_neg hop, List.indexOf_append_of_not_mem h]
  simp only [List.length_append, List.length_singleton, List.indexOf_cons_self]
  have := afterLastRemove_length_le x ops
  omega

theorem liveInsertion_lt {x : JSString} {ops : List TagOp}
    (h : TagOp.add x ∈ afterLastRemove x ops) : liveInsertion ops x < ops.length := by
  unfold liveInsertion
  have h1 := List.indexOf_lt_length.2 h
  have h2 := afterLastRemove_length_le x ops
  omega

theorem get_liveInsertion {x : JSString} {ops : List TagOp}
    (h : TagOp.add x ∈ afterLastRemove x ops) :
    ops[liveInsertion ops x]? = some (TagOp.add x) := by
  obtain ⟨pre, hpre⟩ := afterLastRemove_suffix x ops
  have hlen : ops.length - (afterLastRemove x ops).length = pre.length := by
    have := congrArg List.length hpre
    rw [List.length_append] at this
    omega
  have hidx := List.indexOf_lt_length.2 h
  have hget : ops[pre.length + (afterLastRemove x ops).indexOf (TagOp.add x)]? =
      (pre ++ afterLastRemove x ops)[pre.length +
        (afterLastRemove x ops).indexOf (TagOp.add x)]? :=
    congrArg (fun l => l[pre.length + (afterLastRemove x ops).indexOf (TagOp.add x)]?) hpre
  unfold liveInsertion
  rw [hlen, hget, List.getElem?_append_right (by omega)]
  simp only [Nat.add_sub_cancel_left]
  rw [List.getElem?_eq_getElem hidx]
  simp

/-- Invariant of the tag list along any sequence of calls: no duplicates, membership is
"added since the last removal", and the order is the order of those additions. -/
theorem tag_invariant (ops : List TagOp) :
    (runTagOps ops).Nodup ∧
    (∀ x, x ∈ runTagOps ops ↔ (x ≠ [] ∧ TagOp.add x ∈ afterLastRemove x ops)) ∧
    (runTagOps ops).Pairwise (fun a b => liveInsertion ops a < liveInsertion ops b) := by
  induction ops using List.reverseRecOn with
  | nil =>
    refine ⟨by simp [runTagOps, PostState.initial], ?_, by simp [runTagOps, PostState.initial]⟩
    intro x
    simp [runTagOps, PostState.initial, afterLastRemove]
  | append_singleton ops op ih =>
    obtain ⟨hnd, hmem, hpw⟩ := ih
    cases op with
    | add t =>
      have hne : ∀ x, TagOp.add t ≠ TagOp.remove x := by intro x; simp
      have hkeep : ∀ a ∈ runTagOps ops,
          liveInsertion (ops ++ [TagOp.add t]) a = liveInsertion ops a :=
        fun a ha => liveInsertion_snoc_of_mem _ (hne a) ((hmem a).1 ha).2
      have hpw' : (runTagOps ops).Pairwise (fun a b =>
          liveInsertion (ops ++ [TagOp.add t]) a < liveInsertion (ops ++ [TagOp.add t]) b) := by
        refine hpw.imp_of_mem ?_
        intro a b ha hb hab
        rw [hkeep a ha, hkeep b hb]
        exact hab
      rw [runTagOps_snoc_add]
      by_cases hc : t ≠ [] ∧ t ∉ runTagOps ops
      · rw [if_pos hc]
        have hnew : TagOp.add t ∉ afterLastRemove t ops := by
          intro hin
          exact hc.2 ((hmem t).2 ⟨hc.1, hin⟩)
        refine ⟨?_, ?_, ?_⟩
        · rw [List.nodup_append]
          refine ⟨hnd, List.nodup_singleton t, ?_⟩
          intro a ha hb
          rw [List.mem_singleton] at hb
          subst hb
          exact hc.2 ha
        · intro x
          rw [afterLastRemove_snoc, if_neg (hne x), List.mem_append, List.mem_append, hmem x]
          simp only [List.mem_singleton, TagOp.add.injEq]
          constructor
          · rintro (⟨h1, h2⟩ | h)
            · exact ⟨h1, Or.inl h2⟩
            · subst h
              exact ⟨hc.1, Or.inr rfl⟩
          · rintro ⟨h1, h2 | h2⟩
            · exact Or.inl ⟨h1, h2⟩
            · exact Or.inr h2
        · rw [List.pairwise_append]
          refine ⟨hpw', List.pairwise_singleton _ _, ?_⟩
          intro a ha b hb
          rw [List.mem_singleton] at hb
          subst hb
          rw [hkeep a ha, liveInsertion_snoc_new hnew]
          exact liveInsertion_lt ((hmem a).1 ha).2
      · rw [if_neg hc]
        refine ⟨hnd, ?_, hpw'⟩
        intro x
        rw [afterLastRemove_snoc, if_neg (hne x), List.mem_append, hmem x]
        simp only [List.mem_singleton, TagOp.add.injEq]
        constructor
        · rintro ⟨h1, h2⟩
          exact ⟨h1, Or.inl h2⟩
        · rintro ⟨h1, h2 | h2⟩
          · exact ⟨h1, h2⟩
          · subst h2
            have hin : x ∈ runTagOps ops := by
              by_contra hnot
              exact hc ⟨h1, hnot⟩
            exact (hmem x).1 hin
    | remove t =>
      rw [runTagOps_snoc_remove]
      have hmem' : ∀ x, x ∈ (runTagOps ops).filter (fun tag => tag != t) ↔
          (x ≠ [] ∧ TagOp.add x ∈ afterLastRemove x (ops ++ [TagOp.remove t])) := by
        intro x
        rw [afterLastRemove_snoc, List.mem_filter, hmem x]
        by_cases hx : x = t
        · subst hx
          simp
        · have h1 : TagOp.remove t ≠ TagOp.remove x := by
            intro e
            exact hx (TagOp.remove.inj e).symm
          rw [if_neg h1, List.mem_append]
          simp [hx]
      refine ⟨hnd.filter _, hmem', ?_⟩
      refine (hpw.filter _).imp_of_mem ?_
      intro a b ha hb hab
      have hat : a ≠ t := by
        have := (List.mem_filter.1 ha).2
        simpa using this
      have hbt : b ≠ t := by
        have := (List.mem_filter.1 hb).2
        simpa using this
      have hra : TagOp.remove t ≠ TagOp.remove a := fun e => hat (TagOp.remove.inj e).symm
      have hrb : TagOp.remove t ≠ TagOp.remove b := fun e => hbt (TagOp.remove.inj e).symm
      have ha0 := (hmem a).1 (List.mem_of_mem_filter ha)
      have hb0 := (hmem b).1 (List.mem_of_mem_filter hb)
      rw [liveInsertion_snoc_of_mem _ hra ha0.2, liveInsertion_snoc_of_mem _ hrb hb0.2]
      exact hab

/-- C10 as stated fails: after `add("x"); add("y"); remove("x"); add("x")` the list is
`["y", "x"]`, although `"x"` was first inserted before `"y"`. -/
theorem first_insertion_order_fails :
    runTagOps reinsertOps = [lit "y", lit "x"] ∧
    firstInsertion reinsertOps (lit "x") < firstInsertion reinsertOps (lit "y") ∧
    ¬ (runTagOps reinsertOps).Pairwise
        (fun a b => firstInsertion reinsertOps a < firstInsertion reinsertOps b) := by
  decide

/-- C10, amended. After every sequence of `add` / `remove` calls on the empty tag list
the list has no duplicates and its elements stand in the order of the calls that
inserted them, the insertion of an element being its first `add` after its last
`remove` (an element removed and added again moves to the end); each element was
inserted by such a call. `add("x"); add("x")` yields `["x"]` and `remove(m)` on the empty
list yields the empty list. -/
theorem tag_list_invariant (ops : List TagOp) :
    (runTagOps ops).Nodup ∧
    (runTagOps ops).Pairwise (fun a b => liveInsertion ops a < liveInsertion ops b) ∧
    (∀ a ∈ runTagOps ops, ops[liveInsertion ops a]? = some (TagOp.add a)) ∧
    runTagOps [TagOp.add (lit "x"), TagOp.add (lit "x")] = [lit "x"] ∧
    (∀ m : JSString, runTagOps [TagOp.remove m] = []) := by
  obtain ⟨hnd, hmem, hpw⟩ := tag_invariant ops
  refine ⟨hnd, hpw, ?_, by decide, ?_⟩
  · intro a ha
    exact get_liveInsertion ((hmem a).1 ha).2
  · intro m
    rfl

theorem tag_list_invariant_witness :
    lit "x" ∈ runTagOps reinsertOps ∧
    reinsertOps[liveInsertion reinsertOps (lit "x")]? = some (TagOp.add (lit "x")) :=
  ⟨by decide, (tag_list_invariant reinsertOps).2.2.1 (lit "x") (by decide)⟩

/-! ## The page: commits, captures and the effect's dependencies -/

theorem commit_state (w : Page) : (commit w).state = w.state := by
  unfold commit; split <;> rfl

theorem commit_capturing (w : Page) : (commit w).capturing = w.capturing := by
  unfold commit; split <;> rfl

theorem commit_doc_of_eq {w : Page} (h : w.lastDeps = some w.deps) : commit w = w := by
  unfold commit; rw [if_pos h]

theorem commit_inSync {x : Page}
    (h : x.lastDeps = some x.deps → ∀ u, x.state.ogImage = some u → truthy u = true →
      getContent x.doc ogImageKey = some (some u)) : InSync (commit x) := by
  unfold commit
  by_cases hx : x.lastDeps = some x.deps
  · rw [if_pos hx]
    exact ⟨hx, h hx⟩
  · rw [if_neg hx]
    refine ⟨rfl, ?_⟩
    intro u hu ht
    exact (syncEffect_contents x.state.ogImage x.state.content x.state.title x.href
      x.doc).2.2.2.2.2 u hu ht

theorem commit_inSync_of_frame {w x : Page} (hw : InSync w) (hl : x.lastDeps = w.lastDeps)
    (hd : x.doc = w.doc) : InSync (commit x) := by
  apply commit_inSync
  intro hx u hu ht
  have hdeps : w.deps = x.deps := by
    have := hw.1
    rw [← hl, hx] at this
    exact (Option.some.inj this).symm
  have hog : w.state.ogImage = x.state.ogImage := congrArg Prod.fst hdeps
  rw [hd]
  exact hw.2 u (hog.trans hu) ht

theorem mount_inSync (d : Document) (href : JSString) : InSync (mount d href) := by
  unfold mount
  apply commit_inSync
  intro h
  simp at h

theorem step_inSync {w : Page} (e : Event) (hw : InSync w) : InSync (step w e) := by
  cases e with
  | setTitle v => exact commit_inSync_of_frame hw rfl rfl
  | setContent v => exact commit_inSync_of_frame hw rfl rfl
  | setCurrentTag v => exact commit_inSync_of_frame hw rfl rfl
  | addTag => exact commit_inSync_of_frame hw rfl rfl
  | removeTag t => exact commit_inSync_of_frame hw rfl rfl
  | toggleDarkMode => exact commit_inSync_of_frame hw rfl rfl
  | imageLoaded uri => exact commit_inSync_of_frame hw rfl rfl
  | clickGenerate =>
    simp only [step]
    split
    · exact hw
    · refine commit_inSync_of_frame hw ?_ ?_ <;> (unfold generateOgImage; split <;> rfl)
  | captureResolved imgData =>
    simp only [step]
    split
    · exact hw
    · exact commit_inSync_of_frame hw rfl rfl
  | captureRejected =>
    simp only [step]
    split
    · exact hw
    · exact commit_inSync_of_frame hw rfl rfl

theorem run_inSync {w : Page} (events : List Event) (hw : InSync w) :
    InSync (run w events) := by
  induction events generalizing w with
  | nil => exact hw
  | cons e r ih => exact ih (step_inSync e hw)

theorem commit_eq_of_same_deps {w x : Page} (hw : InSync w) (hl : x.lastDeps = w.lastDeps)
    (hdeps : x.deps = w.deps) : commit x = x := by
  apply commit_doc_of_eq
  rw [hl, hdeps]
  exact hw.1

theorem tagEvents_doc {w : Page} (op : TagOp) (hw : InSync w) :
    (run w (tagEvents op)).doc = w.doc := by
  cases op with
  | add t =>
    have h1 : step w (Event.setCurrentTag t) =
        { w with state := { w.state with currentTag := t } } :=
      commit_eq_of_same_deps hw rfl rfl
    have hw1 : InSync (step w (Event.setCurrentTag t)) := step_inSync _ hw
    have h2 : step (step w (Event.setCurrentTag t)) Event.addTag =
        { step w (Event.setCurrentTag t) with
          state := addTag (step w (Event.setCurrentTag t)).state } := by
      refine commit_eq_of_same_deps hw1 rfl ?_
      simp only [Page.deps, addTag]
      split <;> rfl
    simp only [run, tagEvents, List.foldl_cons, List.foldl_nil]
    rw [h2, h1]
  | remove t =>
    have h1 : step w (Event.removeTag t) = { w with state := removeTag w.state t } :=
      commit_eq_of_same_deps hw rfl rfl
    simp only [run, tagEvents, List.foldl_cons, List.foldl_nil]
    rw [h1]

theorem runTagEvents_doc {w : Page} (ops : List TagOp) (hw : InSync w) :
    (runTagEvents w ops).doc = w.doc := by
  induction ops generalizing w with
  | nil => rfl
  | cons op r ih =>
    have hstep : InSync (run w (tagEvents op)) := run_inSync _ hw
    have := ih hstep
    rw [tagEvents_doc op hw] at this
    exact this

theorem step_captureGuard {w : Page} (e : Event) (hw : CaptureGuard w) :
    CaptureGuard (step w e) := by
  unfold CaptureGuard at *
  cases e with
  | setTitle v => simpa [step, commit_state, commit_capturing] using hw
  | setContent v => simpa [step, commit_state, commit_capturing] using hw
  | setCurrentTag v => simpa [step, commit_state, commit_capturing] using hw
  | addTag =>
    simp only [step, commit_state, commit_capturing]
    have : (addTag w.state).isLoading = w.state.isLoading := by
      unfold addTag; split <;> rfl
    rw [this]; exact hw
  | removeTag t => simpa [step, commit_state, commit_capturing, removeTag] using hw
  | toggleDarkMode => simpa [step, commit_state, commit_capturing] using hw
  | imageLoaded uri => simpa [step, commit_state, commit_capturing] using hw
  | clickGenerate =>
    simp only [step]
    by_cases hl : w.state.isLoading = true
    · rw [if_pos hl]; exact hw
    · rw [if_neg hl, commit_state, commit_capturing]
      have h0 : w.capturing = 0 := by
        rcases hw with h | ⟨_, h⟩
        · exact h
        · exact absurd h hl
      unfold generateOgImage
      by_cases hp : w.postRef = true
      · rw [if_pos hp]
        right
        exact ⟨by simp [h0], rfl⟩
      · rw [if_neg hp]
        left
        exact h0
  | captureResolved imgData =>
    simp only [step]
    by_cases hc : w.capturing = 0
    · rw [if_pos hc]; exact hw
    · rw [if_neg hc, commit_capturing]
      left
      simp only [captureResolved]
      omega
  | captureRejected =>
    simp only [step]
    by_cases hc : w.capturing = 0
    · rw [if_pos hc]; exact hw
    · rw [if_neg hc, commit_capturing]
      left
      simp only [captureRejected]
      omega

theorem run_captureGuard {w : Page} (events : List Event) (hw : CaptureGuard w) :
    CaptureGuard (run w events) := by
  induction events generalizing w with
  | nil => exact hw
  | cons e r ih => exact ih (step_captureGuard e hw)

theorem mount_captureGuard (d : Document) (href : JSString) : CaptureGuard (mount d href) := by
  left
  unfold mount
  rw [commit_capturing]

theorem step_clickGenerate_enabled {w : Page} (h : w.state.isLoading = false) :
    step w Event.clickGenerate = commit (generateOgImage w) := by
  simp [step, h]

theorem step_clickGenerate_disabled {w : Page} (h : w.state.isLoading = true) :
    step w Event.clickGenerate = w := by
  simp [step, h]

theorem step_captureRejected_pending {w : Page} (h : w.capturing ≠ 0) :
    step w Event.captureRejected = commit (captureRejected w) := by
  simp [step, h]

theorem step_captureResolved_pending {w : Page} (u : JSString) (h : w.capturing ≠ 0) :
    step w (Event.captureResolved u) = commit (captureResolved w u) := by
  simp [step, h]

theorem truthy_of_dataUri {u : JSString} (h : lit "data:" <+: u) : truthy u = true := by
  rw [truthy_iff]
  rintro rfl
  have := List.prefix_nil.1 h
  exact absurd this (by decide)

/-- C7, behaviour of the code. After a click on "Generate OG Image" whose capture fails,
`isLoading` is still true, no capture is pending, no snapshot was stored and a further
click does nothing; only the successful continuation resets the flag. -/
theorem capture_failure_leaves_flag_set (d : Document) (href u : JSString) :
    (run (mount d href) [Event.clickGenerate, Event.captureRejected]).state.isLoading = true ∧
    (run (mount d href) [Event.clickGenerate, Event.captureRejected]).capturing = 0 ∧
    (run (mount d href) [Event.clickGenerate, Event.captureRejected]).state.ogImage = none ∧
    step (run (mount d href) [Event.clickGenerate, Event.captureRejected]) Event.clickGenerate =
      run (mount d href) [Event.clickGenerate, Event.captureRejected] ∧
    (run (mount d href) [Event.clickGenerate, Event.captureResolved u]).state.isLoading =
      false := by
  have hm : (mount d href).state = PostState.initial := by
    unfold mount; rw [commit_state]
  have hc : (mount d href).capturing = 0 := by
    unfold mount; rw [commit_capturing]
  have hp : (mount d href).postRef = true := by
    unfold mount commit; split <;> rfl
  have hl : (mount d href).state.isLoading = false := by rw [hm]; rfl
  have h1 : step (mount d href) Event.clickGenerate = commit (generateOgImage (mount d href)) :=
    step_clickGenerate_enabled hl
  have h1s : (step (mount d href) Event.clickGenerate).state =
      { PostState.initial with isLoading := true } := by
    rw [h1, commit_state, generateOgImage, if_pos hp, hm]
  have h1c : (step (mount d href) Event.clickGenerate).capturing = 1 := by
    rw [h1, commit_capturing, generateOgImage, if_pos hp, hc]
  have h1n : (step (mount d href) Event.clickGenerate).capturing ≠ 0 := by rw [h1c]; decide
  have h2 : run (mount d href) [Event.clickGenerate, Event.captureRejected] =
      commit (captureRejected (step (mount d href) Event.clickGenerate)) :=
    step_captureRejected_pending h1n
  have h3 : run (mount d href) [Event.clickGenerate, Event.captureResolved u] =
      commit (captureResolved (step (mount d href) Event.clickGenerate) u) :=
    step_captureResolved_pending u h1n
  have h2s : (run (mount d href) [Event.clickGenerate, Event.captureRejected]).state =
      { PostState.initial with isLoading := true } := by
    rw [h2, commit_state, captureRejected, h1s]
  refine ⟨by rw [h2s], ?_, by rw [h2s]; rfl, ?_, ?_⟩
  · rw [h2, commit_capturing, captureRejected, h1c]
  · exact step_clickGenerate_disabled (by rw [h2s])
  · rw [h3, commit_state, captureResolved]

/-- C8 as stated fails: in the state reached by one click (flag set, one capture
pending) a call of `generateOgImage` starts a second rasterisation, since the function
does not test `isLoading`. -/
theorem generateOgImage_ignores_flag :
    capturingPage.state.isLoading = true ∧ capturingPage.capturing = 1 ∧
    (generateOgImage capturingPage).capturing = 2 := by
  decide

/-- C8, amended. While `isLoading` is true the "Generate OG Image" button is disabled, so
a click does not reach `generateOgImage` and leaves the page as it is; in every state
reached from the first render by events of the page at most one rasterisation is
pending. -/
theorem at_most_one_capture_in_flight (d : Document) (href : JSString) (events : List Event) :
    (run (mount d href) events).capturing ≤ 1 ∧
    (∀ w : Page, w.state.isLoading = true → step w Event.clickGenerate = w) := by
  refine ⟨?_, ?_⟩
  · rcases run_captureGuard events (mount_captureGuard d href) with h | ⟨h, _⟩
    · omega
    · omega
  · intro w hw
    simp [step, hw]

theorem at_most_one_capture_in_flight_witness :
    capturingPage.state.isLoading = true ∧
    step capturingPage Event.clickGenerate = capturingPage :=
  ⟨by decide,
   (at_most_one_capture_in_flight sampleDocument sampleHref []).2 capturingPage (by decide)⟩

/-- C9. After `generateOgImage` succeeds with the data URI `u` and the component has
committed, the `og:image` record found in the registry has content `u`, and no sequence
of `addTag` / `removeTag` calls made afterwards changes the document (registry and
title), so `og:image` stays `u`. -/
theorem ogImage_follows_snapshot (d : Document) (href : JSString) (events : List Event)
    (u : JSString) (ops : List TagOp)
    (hcap : 0 < (run (mount d href) events).capturing) (hu : lit "data:" <+: u) :
    (step (run (mount d href) events) (Event.captureResolved u)).state.ogImage = some u ∧
    getContent (step (run (mount d href) events) (Event.captureResolved u)).doc ogImageKey =
      some (some u) ∧
    (runTagEvents (step (run (mount d href) events) (Event.captureResolved u)) ops).doc =
      (step (run (mount d href) events) (Event.captureResolved u)).doc ∧
    getContent
      (runTagEvents (step (run (mount d href) events) (Event.captureResolved u)) ops).doc
      ogImageKey = some (some u) := by
  have hsync : InSync (step (run (mount d href) events) (Event.captureResolved u)) :=
    step_inSync _ (run_inSync events (mount_inSync d href))
  have hog : (step (run (mount d href) events) (Event.captureResolved u)).state.ogImage =
      some u := by
    have hne : (run (mount d href) events).capturing ≠ 0 := by omega
    simp [step, hne, commit_state, captureResolved]
  have hcontent := hsync.2 u hog (truthy_of_dataUri hu)
  have hframe := runTagEvents_doc ops hsync
  exact ⟨hog, hcontent, hframe, by rw [hframe]; exact hcontent⟩

theorem ogImage_follows_snapshot_witness :
    0 < (run (mount sampleDocument sampleHref) sampleEvents).capturing ∧
    lit "data:" <+: sampleDataUri ∧
    (step (run (mount sampleDocument sampleHref) sampleEvents)
      (Event.captureResolved sampleDataUri)).state.ogImage = some sampleDataUri ∧
    getContent (step (run (mount sampleDocument sampleHref) sampleEvents)
      (Event.captureResolved sampleDataUri)).doc ogImageKey = some (some sampleDataUri) ∧
    (runTagEvents (step (run (mount sampleDocument sampleHref) sampleEvents)
      (Event.captureResolved sampleDataUri)) reinsertOps).doc =
      (step (run (mount sampleDocument sampleHref) sampleEvents)
        (Event.captureResolved sampleDataUri)).doc ∧
    getContent
      (runTagEvents (step (run (mount sampleDocument sampleHref) sampleEvents)
        (Event.captureResolved sampleDataUri)) reinsertOps).doc
      ogImageKey = some (some sampleDataUri) :=
  ⟨by decide, by decide,
   ogImage_follows_snapshot sampleDocument sampleHref sampleEvents sampleDataUri reinsertOps
     (by decide) (by decide)⟩

end PostPage
